import Mathlib

/- Verification of the cascading-style-s-expressions compiler (src/lib.rs).

   Shallow embedding conventions: Rust `String` values are modelled as
   `List Char`; the `u32` depth counters are `Nat` with the subtraction
   guarded exactly where the source checks it, and an unguarded checked
   subtraction that would overflow is modelled as a `none` outcome, as is
   an out-of-bounds slice; both are Rust panics. Fallible functions keep
   their `Option`/`Result` shape. -/

/-- Unicode white space exactly as Rust's `char::is_whitespace` (the
    White_Space property). -/
def is_whitespace (c : Char) : Bool :=
  c = ' ' || c = '\t' || c = '\n' || c = '\x0b' || c = '\x0c' || c = '\r' ||
  c.val = 0x85 || c.val = 0xa0 || c.val = 0x1680 ||
  (0x2000 ≤ c.val && c.val ≤ 0x200a) ||
  c.val = 0x2028 || c.val = 0x2029 || c.val = 0x202f || c.val = 0x205f || c.val = 0x3000

/-- Model of `Token` (src lines 4-9): `String(String) | LParen | RParen`. -/
inductive Token where
  | string (s : List Char)
  | lparen
  | rparen
deriving DecidableEq

/-- Model of `Selector` (src line 12): a wrapper around one string. -/
structure Selector where
  text : List Char
deriving DecidableEq

/-- Model of `Rule` (src lines 14-18). -/
structure Rule where
  property : List Char
  value : List (List Char)
deriving DecidableEq

/-- Model of `SExpr` (src lines 20-25): a selector, rules, and child nodes. -/
inductive SExpr where
  | mk (selector : Selector) (rules : List Rule) (children : List SExpr)

def SExpr.selector : SExpr → Selector
  | .mk s _ _ => s

def SExpr.rules : SExpr → List Rule
  | .mk _ r _ => r

def SExpr.children : SExpr → List SExpr
  | .mk _ _ c => c

mutual

def SExpr.decEq : (a b : SExpr) → Decidable (a = b)
  | .mk s r c, .mk s' r' c' =>
    match inferInstanceAs (Decidable (s = s')), inferInstanceAs (Decidable (r = r')),
        SExpr.decEqList c c' with
    | isTrue h1, isTrue h2, isTrue h3 => isTrue (by rw [h1, h2, h3])
    | isFalse h1, _, _ => isFalse (by intro he; cases he; exact h1 rfl)
    | _, isFalse h2, _ => isFalse (by intro he; cases he; exact h2 rfl)
    | _, _, isFalse h3 => isFalse (by intro he; cases he; exact h3 rfl)

def SExpr.decEqList : (a b : List SExpr) → Decidable (a = b)
  | [], [] => isTrue rfl
  | [], _ :: _ => isFalse (by simp)
  | _ :: _, [] => isFalse (by simp)
  | x :: xs, y :: ys =>
    match SExpr.decEq x y, SExpr.decEqList xs ys with
    | isTrue h1, isTrue h2 => isTrue (by rw [h1, h2])
    | isFalse h1, _ => isFalse (by simp [h1])
    | _, isFalse h2 => isFalse (by simp [h2])

end

instance : DecidableEq SExpr := SExpr.decEq

/-- Model of `lex_string` (src lines 64-79): the in-word scan. Given the
    current nesting counter and the remaining characters, returns the word
    collected and the characters that are left (the terminating character is
    not consumed). -/
def lex_string (depth : Nat) : List Char → List Char × List Char
  | [] => ([], [])
  | c :: rest =>
    if c = '(' then
      let (s, r) := lex_string (depth + 1) rest
      (c :: s, r)
    else if c = ')' then
      if 0 < depth then
        let (s, r) := lex_string (depth - 1) rest
        (c :: s, r)
      else ([], c :: rest)
    else if is_whitespace c ∧ depth = 0 then ([], c :: rest)
    else
      let (s, r) := lex_string depth rest
      (c :: s, r)

/-- One pass of the lexer. The state `none` is the outer scan of `lex`
    (src lines 43-60); `some (acc, depth)` is an in-progress word scan,
    holding the reversed characters collected so far and the nesting counter
    of `lex_string` (src lines 64-79). Fusing the two loops makes the
    recursion structural in the input; `lex_loop_word` below proves the word
    state equal to the source's separate `lex_string` call, so the fused
    form is the source's behavior. -/
def lex_loop : Option (List Char × Nat) → List Char → List Token
  | none, [] => []
  | some (acc, _), [] => [Token.string acc.reverse]
  | none, c :: rest =>
    if c = '(' then Token.lparen :: lex_loop none rest
    else if c = ')' then Token.rparen :: lex_loop none rest
    else if is_whitespace c then lex_loop none rest
    else lex_loop (some ([c], 0)) rest
  | some (acc, depth), c :: rest =>
    if c = '(' then lex_loop (some (c :: acc, depth + 1)) rest
    else if c = ')' then
      if 0 < depth then lex_loop (some (c :: acc, depth - 1)) rest
      else Token.string acc.reverse :: Token.rparen :: lex_loop none rest
    else if is_whitespace c ∧ depth = 0 then Token.string acc.reverse :: lex_loop none rest
    else lex_loop (some (c :: acc, depth)) rest

/-- The token sequence `lex` (src lines 40-62) builds for an input. -/
def lex_tokens (input : List Char) : List Token :=
  lex_loop none input

/-- Model of `lex` (src lines 40-62). The Rust function's only exit wraps the
    token vector in `Ok`; the declared error channel (the `String` error of
    its `Result` type) is never used by the body. -/
def lex (input : List Char) : Except (List Char) (List Token) :=
  Except.ok (lex_tokens input)

/-- Model of the `map_while` in `parse_rule` (src lines 135-140): greedily
    collect `Word` texts; the first non-`Word` token, when there is one, is
    consumed and discarded. -/
def take_words : List Token → List (List Char) × List Token
  | [] => ([], [])
  | Token.string s :: rest => (s :: (take_words rest).1, (take_words rest).2)
  | _ :: rest => ([], rest)

/-- Model of `parse_rule` (src lines 128-145): a property `Word`, then either
    a single bare `Word` value or an `Open` followed by the greedy `Word`
    collection of `take_words`. Every other shape is `None`. -/
def parse_rule : List Token → Option (Rule × List Token)
  | Token.string p :: Token.string v :: rest => some (⟨p, [v]⟩, rest)
  | Token.string p :: Token.lparen :: rest =>
    some (⟨p, (take_words rest).1⟩, (take_words rest).2)
  | _ => none

/-- Body loop of `parse_s_expr` (src lines 106-120), inlining the selector
    header of a nested child node (src lines 102-105) at its `Open` case:
    collects rules and children until a token that is neither a `Word` nor an
    `Open` is consumed (or the tokens run out), and returns the leftover
    tokens. The `fuel` argument only makes the recursion structural;
    `parse_body_fuel_eq` shows that any fuel above the token count gives the
    same result, so the fuel never changes the modelled behavior. -/
def parse_body : Nat → List Token → Option (List Rule × List SExpr × List Token)
  | 0, _ => none
  | _ + 1, [] => some ([], [], [])
  | fuel + 1, Token.string p :: rest =>
    match parse_rule (Token.string p :: rest) with
    | none => none
    | some (r, rest') =>
      match parse_body fuel rest' with
      | none => none
      | some (rs, cs, rest'') => some (r :: rs, cs, rest'')
  | fuel + 1, Token.lparen :: rest =>
    match rest with
    | Token.string s :: rest2 =>
      match parse_body fuel rest2 with
      | none => none
      | some (rs1, cs1, rest3) =>
        match parse_body fuel rest3 with
        | none => none
        | some (rs, cs, rest4) => some (rs, SExpr.mk ⟨s⟩ rs1 cs1 :: cs, rest4)
    | _ => none
  | _ + 1, Token.rparen :: rest => some ([], [], rest)

/-- Model of `parse_s_expr` (src lines 101-126): the first token must be a
    `Word`, which becomes the selector; then the body loop runs. Returns the
    node together with the tokens left after it. -/
def parse_s_expr (tokens : List Token) : Option (SExpr × List Token) :=
  match tokens with
  | Token.string s :: rest =>
    match parse_body (rest.length + 1) rest with
    | none => none
    | some (rs, cs, rest') => some (SExpr.mk ⟨s⟩ rs cs, rest')
  | _ => none

/-- Top-level loop of `parse` (src lines 81-99). `seg` holds the tokens of
    the current run, `tokens[left..right]`. A `none` result models a Rust
    panic: either the checked subtraction `depth -= 1` overflowing on a
    `Close` seen at depth zero (src line 88), or the slice
    `tokens[left+1..right]` with `left + 1 > right` (src line 92), which is
    exactly the case `seg = []`. The source's `parse` has no error channel:
    its Rust type returns a plain vector, so a panic yields no result at
    all. -/
def parse_loop : List Token → List Token → Nat → List SExpr → Option (List SExpr)
  | [], _, _, acc => some acc.reverse
  | Token.lparen :: rest, seg, depth, acc =>
    parse_loop rest (seg ++ [Token.lparen]) (depth + 1) acc
  | Token.rparen :: rest, seg, depth, acc =>
    if depth = 0 then none
    else if depth = 1 then
      if seg = [] then none
      else
        match parse_s_expr seg.tail with
        | some (e, _) => parse_loop rest [] 0 (e :: acc)
        | none => parse_loop rest [] 0 acc
    else parse_loop rest (seg ++ [Token.rparen]) (depth - 1) acc
  | Token.string w :: rest, seg, depth, acc =>
    if depth = 0 then
      if seg = [] then none
      else
        match parse_s_expr seg.tail with
        | some (e, _) => parse_loop rest [] 0 (e :: acc)
        | none => parse_loop rest [] 0 acc
    else parse_loop rest (seg ++ [Token.string w]) depth acc

/-- Model of `parse` (src lines 81-99). -/
def parse (tokens : List Token) : Option (List SExpr) :=
  parse_loop tokens [] 0 []

/-- Model of Rust's `str::split_inclusive` with a one-character pattern:
    substrings after each occurrence end with the delimiter; the last
    substring may not; an empty input yields no substrings. -/
def split_inclusive (d : Char) : List Char → List (List Char)
  | [] => []
  | c :: rest =>
    if c = d then [c] :: split_inclusive d rest
    else
      match split_inclusive d rest with
      | [] => [[c]]
      | p :: ps => (c :: p) :: ps

/-- The selector computation of `to_stylesheet` (src line 29): split the raw
    selector on commas inclusively, put `parent` and one space before every
    piece, join the pieces with newlines. -/
def full_selector (parent : List Char) (sel : List Char) : List Char :=
  List.intercalate ['\n'] ((split_inclusive ',' sel).map (fun s => parent ++ ' ' :: s))

/-- One rule line of `to_stylesheet` (src line 30): four spaces, the property,
    a colon and a space, the value texts joined by single spaces, and a
    semicolon. -/
def rule_line (r : Rule) : List Char :=
  ' ' :: ' ' :: ' ' :: ' ' :: r.property ++ ':' :: ' ' :: List.intercalate [' '] r.value ++ [';']

mutual

/-- Model of `SExpr::to_stylesheet` (src lines 28-37). With no rules, the
    output is the children's output joined by the empty string; otherwise a
    block is emitted and the children's output is joined by a newline
    (src line 35 writes `children.join("\n")`). -/
def to_stylesheet (e : SExpr) (parent : List Char) : List Char :=
  match e with
  | SExpr.mk sel rules children =>
    if rules.isEmpty then
      to_stylesheet_list children (full_selector parent sel.text) []
    else
      full_selector parent sel.text ++ ' ' :: '\x7b' :: '\n' ::
        List.intercalate ['\n'] (rules.map rule_line) ++ '\n' :: '\x7d' :: '\n' ::
        to_stylesheet_list children (full_selector parent sel.text) ['\n']

/-- Children rendering of `to_stylesheet` (src line 31 with the joins of
    lines 33 and 35): render every child against the full selector and join
    the results with `sep`. -/
def to_stylesheet_list : List SExpr → List Char → List Char → List Char
  | [], _, _ => []
  | [c], sel, _ => to_stylesheet c sel
  | c :: cs, sel, sep => to_stylesheet c sel ++ sep ++ to_stylesheet_list cs sel sep

end

/-- Model of `string_to_stylesheet` (src lines 147-156): lex, parse, render
    every top-level node with the empty parent and concatenate. A `none`
    result models a parse panic; the lex error that the Rust signature could
    forward never occurs. -/
def string_to_stylesheet (input : List Char) : Option (List Char) :=
  match lex input with
  | Except.error _ => none
  | Except.ok tokens =>
    match parse tokens with
    | none => none
    | some es => some (List.intercalate [] (es.map (fun e => to_stylesheet e [])))

/-- Text of one token for re-serialization. -/
def show_token : Token → List Char
  | Token.string s => s
  | Token.lparen => ['(']
  | Token.rparen => [')']

/-- Modelled from the spec: the re-serialization C8 describes, joining `Word`
    texts with single spaces and writing parentheses adjacently (no space on
    either side of a parenthesis). -/
def serialize_spec : List Token → List Char
  | [] => []
  | [t] => show_token t
  | t :: t' :: rest =>
    show_token t ++
      (match t, t' with
       | Token.string _, Token.string _ => [' ']
       | _, _ => []) ++ serialize_spec (t' :: rest)

/-- Re-serialization under which the round trip does hold: like
    `serialize_spec`, but a single space is also written between a `Word`
    and a following `Open` (otherwise the `Open` is absorbed into the
    re-lexed word). -/
def serialize : List Token → List Char
  | [] => []
  | [t] => show_token t
  | t :: t' :: rest =>
    show_token t ++
      (match t, t' with
       | Token.string _, Token.string _ => [' ']
       | Token.string _, Token.lparen => [' ']
       | _, _ => []) ++ serialize (t' :: rest)

/-- Word-scan consistency: `scan_all d w` is `some d'` when the `lex_string`
    automaton started at counter `d` consumes every character of `w` without
    stopping, ending at counter `d'`; it is `none` when the scan would stop
    inside `w` (at a `)` or a white-space character seen at counter 0). -/
def scan_all : Nat → List Char → Option Nat
  | d, [] => some d
  | d, c :: rest =>
    if c = '(' then scan_all (d + 1) rest
    else if c = ')' then
      if 0 < d then scan_all (d - 1) rest else none
    else if is_whitespace c ∧ d = 0 then none
    else scan_all d rest

/-- A character that can begin a lexed word: not a parenthesis and not white
    space (`lex` only enters the word scan on such a character). -/
def word_head_ok (c : Char) : Bool :=
  !(c = '(' || c = ')' || is_whitespace c)

/-- Shape of every token sequence `lex` can produce: words are non-empty,
    begin with a word-head character, and are consumed whole by the word
    scan; a word whose scan ends at a positive counter can only be the last
    token (the scan only stops early at counter zero). -/
inductive GoodToks : List Token → Prop where
  | nil : GoodToks []
  | lparen {ts} : GoodToks ts → GoodToks (Token.lparen :: ts)
  | rparen {ts} : GoodToks ts → GoodToks (Token.rparen :: ts)
  | word {c w ts} : word_head_ok c = true → scan_all 0 (c :: w) = some 0 → GoodToks ts →
      GoodToks (Token.string (c :: w) :: ts)
  | word_last {c w d} : word_head_ok c = true → scan_all 0 (c :: w) = some d →
      GoodToks [Token.string (c :: w)]

/-- Depth tracking for C9: scanning `ts` from counter `d` (with `1 ≤ d`
    intended), the counter never returns to zero, so no token of `ts` closes
    or splits a top-level run. -/
def stays_pos : Nat → List Token → Bool
  | _, [] => true
  | d, Token.lparen :: ts => stays_pos (d + 1) ts
  | d, Token.rparen :: ts => decide (2 ≤ d) && stays_pos (d - 1) ts
  | d, Token.string _ :: ts => decide (1 ≤ d) && stays_pos d ts

/-- The value of the depth counter after scanning `ts` from `d`, when no
    underflow happens along the way. -/
def end_depth : Nat → List Token → Nat
  | d, [] => d
  | d, Token.lparen :: ts => end_depth (d + 1) ts
  | d, Token.rparen :: ts => end_depth (d - 1) ts
  | d, Token.string _ :: ts => end_depth d ts

/-- Reading of C3's precondition: every token encountered while the depth
    counter is zero is a parenthesis (either kind). The counter is tracked
    as `parse` does, with the decrement truncated at zero. -/
def parens_at_zero : Nat → List Token → Bool
  | _, [] => true
  | 0, Token.string _ :: _ => false
  | 0, Token.lparen :: ts => parens_at_zero 1 ts
  | 0, Token.rparen :: ts => parens_at_zero 0 ts
  | d + 1, Token.lparen :: ts => parens_at_zero (d + 2) ts
  | d + 1, Token.rparen :: ts => parens_at_zero d ts
  | d + 1, Token.string _ :: ts => parens_at_zero (d + 1) ts

/-- Amended precondition for C3: every token encountered while the depth
    counter is zero is an `Open` parenthesis. -/
def opens_at_zero : Nat → List Token → Bool
  | _, [] => true
  | 0, Token.lparen :: ts => opens_at_zero 1 ts
  | 0, _ :: _ => false
  | d + 1, Token.lparen :: ts => opens_at_zero (d + 2) ts
  | d + 1, Token.rparen :: ts => opens_at_zero d ts
  | d + 1, Token.string _ :: ts => opens_at_zero (d + 1) ts

/-- Modelled from the spec wording of C4's CSS block: the full selector
    line(s), a space and the opening brace, a newline, the rule lines joined
    by newlines, a newline, the closing brace, a newline. -/
def css_block (e : SExpr) (parent : List Char) : List Char :=
  full_selector parent e.selector.text ++ [' ', '\x7b', '\n'] ++
    List.intercalate ['\n'] (e.rules.map rule_line) ++ ['\n', '\x7d', '\n']

/-- Occurrences of one character in a text. -/
def count_char (c : Char) (s : List Char) : Nat :=
  s.count c

mutual

/-- Number of nodes of the tree, at all depths, that have at least one
    rule: the nodes for which `to_stylesheet` emits a block. -/
def rule_nodes : SExpr → Nat
  | SExpr.mk _ rules children => (if rules.isEmpty then 0 else 1) + rule_nodes_list children

def rule_nodes_list : List SExpr → Nat
  | [] => 0
  | c :: cs => rule_nodes c + rule_nodes_list cs

end

mutual

/-- No selector, property or value text anywhere in the tree contains an
    opening brace, so every opening brace of the rendered output is the one
    of a block header. -/
def clean_tree : SExpr → Bool
  | SExpr.mk sel rules children =>
    count_char '\x7b' sel.text = 0 &&
    rules.all (fun r =>
      count_char '\x7b' r.property = 0 && r.value.all (fun v => count_char '\x7b' v = 0)) &&
    clean_tree_list children

def clean_tree_list : List SExpr → Bool
  | [] => true
  | c :: cs => clean_tree c && clean_tree_list cs

end

/-- Modelled from the spec wording of C6's word scan, written as a
    one-character classifier: `some d'` means the character is appended and
    the counter becomes `d'`; `none` means the word ends without the
    character being consumed. -/
def word_action (d : Nat) (c : Char) : Option Nat :=
  if c = '(' then some (d + 1)
  else if c = ')' then
    if 0 < d then some (d - 1) else none
  else if is_whitespace c then
    if d = 0 then none else some d
  else some d

/-- Modelled from the spec wording of C6's word scan: repeatedly apply
    `word_action` until it says stop or the input ends. -/
def lex_word_spec (d : Nat) : List Char → List Char × List Char
  | [] => ([], [])
  | c :: rest =>
    match word_action d c with
    | none => ([], c :: rest)
    | some d' =>
      let (s, r) := lex_word_spec d' rest
      (c :: s, r)

/-- Occurrences of `Open` in a token sequence. -/
def count_lp : List Token → Nat
  | [] => 0
  | Token.lparen :: ts => count_lp ts + 1
  | _ :: ts => count_lp ts

/-- Occurrences of `Close` in a token sequence. -/
def count_rp : List Token → Nat
  | [] => 0
  | Token.rparen :: ts => count_rp ts + 1
  | _ :: ts => count_rp ts

/-- Invariant of the in-word lexer state: the collected characters (reversed)
    form a non-empty word whose head can begin a word and whose full scan
    from counter 0 lands exactly on the state's counter. -/
def state_ok : Option (List Char × Nat) → Prop
  | none => True
  | some (acc, d) => ∃ c w, acc.reverse = c :: w ∧ word_head_ok c = true ∧
      scan_all 0 (c :: w) = some d

theorem lex_loop_word (l : List Char) : ∀ (acc : List Char) (d : Nat),
    lex_loop (some (acc, d)) l =
      Token.string (acc.reverse ++ (lex_string d l).1) :: lex_loop none (lex_string d l).2 := by
  induction l with
  | nil => intro acc d; simp [lex_loop, lex_string]
  | cons c rest ih =>
    intro acc d
    by_cases h1 : c = '('
    · simp [lex_loop, lex_string, h1, ih]
    · by_cases h2 : c = ')'
      · by_cases h3 : 0 < d
        · simp [lex_loop, lex_string, h1, h2, h3, ih]
        · simp [lex_loop, lex_string, h1, h2, h3]
      · by_cases h4 : is_whitespace c = true ∧ d = 0
        · obtain ⟨hw, hd⟩ := h4
          subst hd
          simp [lex_loop, lex_string, h1, h2, hw]
        · simp only [not_and] at h4
          by_cases hw : is_whitespace c = true
          · have hd : ¬ d = 0 := h4 hw
            simp [lex_loop, lex_string, h1, h2, hw, hd, ih]
          · simp [lex_loop, lex_string, h1, h2, hw, ih]

theorem lex_tokens_lparen (rest : List Char) :
    lex_tokens ('(' :: rest) = Token.lparen :: lex_tokens rest := by
  simp [lex_tokens, lex_loop]

theorem lex_tokens_rparen (rest : List Char) :
    lex_tokens (')' :: rest) = Token.rparen :: lex_tokens rest := by
  simp [lex_tokens, lex_loop]

theorem lex_tokens_ws {c : Char} (rest : List Char) (hw : is_whitespace c = true) :
    lex_tokens (c :: rest) = lex_tokens rest := by
  have h1 : ¬ c = '(' := by rintro rfl; simp [is_whitespace] at hw
  have h2 : ¬ c = ')' := by rintro rfl; simp [is_whitespace] at hw
  simp [lex_tokens, lex_loop, h1, h2, hw]

theorem lex_tokens_word {c : Char} (rest : List Char) (h1 : ¬ c = '(') (h2 : ¬ c = ')')
    (h3 : ¬ is_whitespace c = true) :
    lex_tokens (c :: rest) =
      Token.string (lex_string 0 (c :: rest)).1 :: lex_tokens (lex_string 0 (c :: rest)).2 := by
  have hs : lex_string 0 (c :: rest) = (c :: (lex_string 0 rest).1, (lex_string 0 rest).2) := by
    simp [lex_string, h1, h2, h3]
  rw [hs]
  simp [lex_tokens, lex_loop, h1, h2, h3, lex_loop_word]

example : lex_tokens ( "(body color red)".toList ) =
    [Token.lparen, Token.string ( "body".toList ), Token.string ( "color".toList ),
     Token.string ( "red".toList ), Token.rparen] := by decide

example : lex_tokens ( "(body background-color var(--text-color, red))".toList ) =
    [Token.lparen, Token.string ( "body".toList ), Token.string ( "background-color".toList ),
     Token.string ( "var(--text-color, red)".toList ), Token.rparen] := by decide

example : parse (lex_tokens ( "(body color red)".toList )) =
    some [SExpr.mk ⟨ "body".toList ⟩ [⟨ "color".toList, [ "red".toList ]⟩] []] := by decide

example : parse (lex_tokens ( "(body margin (0 8px 0 8px))".toList )) =
    some [SExpr.mk ⟨ "body".toList ⟩
      [⟨ "margin".toList, [ "0".toList, "8px".toList, "0".toList, "8px".toList ]⟩] []] := by decide

example : parse (lex_tokens ( "(ul (li text-decoration none))".toList )) =
    some [SExpr.mk ⟨ "ul".toList ⟩ []
      [SExpr.mk ⟨ "li".toList ⟩ [⟨ "text-decoration".toList, [ "none".toList ]⟩] []]] := by decide

example : parse (lex_tokens ( "foo".toList )) = none := by decide

example : parse [Token.rparen] = none := by decide

example : to_stylesheet (SExpr.mk ⟨ "body".toList ⟩ [⟨ "color".toList, [ "red".toList ]⟩] []) [] =
    ( " body \x7b\n    color: red;\n\x7d\n".toList ) := by decide

example : string_to_stylesheet ( "(ul (li text-decoration none))".toList ) =
    some ( " ul li \x7b\n    text-decoration: none;\n\x7d\n".toList ) := by decide

example : string_to_stylesheet ( "(body color red)\n(p color blue)".toList ) =
    some ( " body \x7b\n    color: red;\n\x7d\n p \x7b\n    color: blue;\n\x7d\n".toList ) := by
  decide

example : serialize_spec (lex_tokens ( "(body margin (0))".toList )) =
    ( "(body margin(0))".toList ) := by decide

example : serialize (lex_tokens ( "(body margin (0))".toList )) =
    ( "(body margin (0))".toList ) := by decide

theorem parse_loop_underflow : ∀ (ts : List Token), ∀ (seg : List Token) (depth : Nat)
    (acc : List SExpr), depth + count_lp ts < count_rp ts →
    parse_loop ts seg depth acc = none := by
  intro ts
  induction ts with
  | nil => intro seg depth acc h; simp [count_lp, count_rp] at h
  | cons t rest ih =>
    intro seg depth acc h
    match t with
    | Token.lparen =>
      simp only [count_lp, count_rp] at h
      simp only [parse_loop]
      exact ih _ _ _ (by omega)
    | Token.rparen =>
      simp only [count_lp, count_rp] at h
      match depth with
      | 0 => simp [parse_loop]
      | 1 =>
        simp only [parse_loop, if_neg (by omega : ¬ (1 : Nat) = 0), if_pos rfl]
        rcases seg with _ | ⟨s, seg'⟩
        · simp
        · simp only [if_neg (by simp : ¬ s :: seg' = [])]
          match parse_s_expr (s :: seg').tail with
          | some (e, _) => exact ih _ _ _ (by omega)
          | none => exact ih _ _ _ (by omega)
      | d + 2 =>
        simp only [parse_loop, if_neg (by omega : ¬ d + 2 = 0), if_neg (by omega : ¬ d + 2 = 1)]
        exact ih _ _ _ (by omega)
    | Token.string w =>
      simp only [count_lp, count_rp] at h
      match depth with
      | 0 =>
        simp only [parse_loop, if_pos rfl]
        rcases seg with _ | ⟨s, seg'⟩
        · simp
        · simp only [if_neg (by simp : ¬ s :: seg' = [])]
          match parse_s_expr (s :: seg').tail with
          | some (e, _) => exact ih _ _ _ (by omega)
          | none => exact ih _ _ _ (by omega)
      | d + 1 =>
        simp only [parse_loop, if_neg (by omega : ¬ d + 1 = 0)]
        exact ih _ _ _ (by omega)

/-- C2, counterexample. The claim says `parse` explicitly detects an excess
    `Close` and rejects the input as a fatal parse error with a clear error.
    The source has no such guard and no error channel at all (its `parse`
    returns a plain vector): on the single-token input `)` the loop reaches
    the unguarded checked subtraction `depth -= 1` at depth zero, an
    arithmetic-overflow panic, modelled here as `parse` producing no result
    rather than any error value. -/
theorem claim_c2_counterexample : parse [Token.rparen] = none := by decide

/-- C2, amended: on every token sequence with more `Close` than `Open`
    tokens the depth counter underflows (or the run dies earlier on a
    top-level word slice), so `parse` panics and yields no result; no
    explicit unbalanced-parenthesis error is ever produced, the unsigned
    depth arithmetic is simply left unguarded. -/
theorem claim_c2 : ∀ (ts : List Token),
    count_lp ts < count_rp ts → parse ts = none := by
  intro ts h
  exact parse_loop_underflow ts [] 0 [] (by omega)

/-- C2, witness for the amended claim at the input tokens of `) ( )`. -/
theorem claim_c2_witness : parse [Token.rparen, Token.lparen, Token.rparen] = none :=
  claim_c2 [Token.rparen, Token.lparen, Token.rparen] (by decide)

theorem parse_loop_total : ∀ (ts : List Token), ∀ (seg : List Token) (depth : Nat)
    (acc : List SExpr), opens_at_zero depth ts = true → (0 < depth → seg ≠ []) →
    (parse_loop ts seg depth acc).isSome = true := by
  intro ts
  induction ts with
  | nil => intro seg depth acc _ _; simp [parse_loop]
  | cons t rest ih =>
    intro seg depth acc h hseg
    match t, depth with
    | Token.lparen, 0 =>
      simp only [opens_at_zero] at h
      simp only [parse_loop]
      exact ih _ _ _ h (by simp)
    | Token.lparen, d + 1 =>
      simp only [opens_at_zero] at h
      simp only [parse_loop]
      exact ih _ _ _ h (by simp)
    | Token.rparen, 0 => simp [opens_at_zero] at h
    | Token.rparen, 1 =>
      simp only [opens_at_zero] at h
      have hs : seg ≠ [] := hseg (by omega)
      simp only [parse_loop, if_neg (by omega : ¬ (1 : Nat) = 0), if_pos rfl, if_neg hs]
      match parse_s_expr seg.tail with
      | some (e, _) => exact ih _ _ _ h (by simp)
      | none => exact ih _ _ _ h (by simp)
    | Token.rparen, d + 2 =>
      simp only [opens_at_zero] at h
      simp only [parse_loop, if_neg (by omega : ¬ d + 2 = 0), if_neg (by omega : ¬ d + 2 = 1)]
      exact ih _ _ _ h (by simp)
    | Token.string w, 0 => simp [opens_at_zero] at h
    | Token.string w, d + 1 =>
      simp only [opens_at_zero] at h
      simp only [parse_loop, if_neg (by omega : ¬ d + 1 = 0)]
      exact ih _ _ _ h (by simp)

/-- C3, counterexample. The claim's precondition asks only that every token
    met at depth zero be a parenthesis; the tokens of `())` satisfy it (the
    claim's slice-bounds clause also holds along this run: every slice taken
    is well-formed), yet `parse` still returns no result, because the final
    `Close` is met at depth zero and underflows the counter. -/
theorem claim_c3_counterexample :
    parens_at_zero 0 [Token.lparen, Token.rparen, Token.rparen] = true ∧
    parse [Token.lparen, Token.rparen, Token.rparen] = none := by decide

/-- C3, amended: `parse` is total for every token sequence in which every
    token met at depth zero is an `Open` parenthesis (a `Close` there would
    underflow the counter instead of merely breaking a slice bound); and, as
    the claim states, on a depth-zero `Word` — such as the tokens of the bare
    text `foo` — the slice precondition fails and `parse` gives no result. -/
theorem claim_c3 :
    (∀ ts : List Token, opens_at_zero 0 ts = true → (parse ts).isSome = true) ∧
    parse (lex_tokens ( "foo".toList )) = none := by
  refine ⟨fun ts h => parse_loop_total ts [] 0 [] h (by omega), by decide⟩

/-- C3, witness for the amended claim at the tokens of `(a)`. -/
theorem claim_c3_witness :
    (parse [Token.lparen, Token.string ( "a".toList ), Token.rparen]).isSome = true :=
  claim_c3.1 [Token.lparen, Token.string ( "a".toList ), Token.rparen] (by decide)

/-- C1, counterexample. On the input `(body margin ())` the parse succeeds
    and constructs a `Rule` whose value sequence is empty: the parenthesized
    value list contains no `Word`, and `parse_rule` collects exactly the
    words it finds. The claim says the value would still be non-empty. -/
theorem claim_c1_counterexample :
    (parse (lex_tokens ( "(body margin ())".toList ))).map
      (fun es => es.map (fun e => e.rules.map Rule.value)) = some [[[]]] := by decide

/-- C1, amended: a `Rule` built from a single bare `Word` always carries a
    singleton (hence non-empty) value sequence, and a `Rule` built from a
    parenthesized list carries exactly the `Word` texts of that list, which
    is empty when the list contains none — for `(body margin ())` the parsed
    rule's value sequence is empty. -/
theorem claim_c1 :
    (∀ (p v : List Char) (rest : List Token),
      parse_rule (Token.string p :: Token.string v :: rest) = some (⟨p, [v]⟩, rest) ∧
      (⟨p, [v]⟩ : Rule).value.length = 1) ∧
    (∀ (p : List Char) (rest : List Token),
      parse_rule (Token.string p :: Token.lparen :: rest) =
        some (⟨p, (take_words rest).1⟩, (take_words rest).2)) ∧
    parse (lex_tokens ( "(body margin ())".toList )) =
      some [SExpr.mk ⟨ "body".toList ⟩ [⟨ "margin".toList, []⟩] []] := by
  refine ⟨fun p v rest => ⟨rfl, rfl⟩, fun p rest => rfl, by decide⟩

/-- C6: the lexer's word scan behaves exactly as described, character by
    character — `lex_string` agrees with the spec-worded classifier
    `lex_word_spec` at every counter and every input (open parenthesis:
    count up and append; close at positive count: count down and append;
    close at zero: end without consuming; white space at zero: end without
    consuming; anything else, including white space at positive count:
    append) — and consequently `var(--text-color, red)` lexes as one single
    `Word` token. -/
theorem claim_c6 :
    (∀ (d : Nat) (l : List Char), lex_string d l = lex_word_spec d l) ∧
    lex_tokens ( "(body background-color var(--text-color, red))".toList ) =
      [Token.lparen, Token.string ( "body".toList ),
       Token.string ( "background-color".toList ),
       Token.string ( "var(--text-color, red)".toList ), Token.rparen] := by
  constructor
  · intro d l
    induction l generalizing d with
    | nil => rfl
    | cons c rest ih =>
      by_cases h1 : c = '('
      · simp [lex_string, lex_word_spec, word_action, h1, ih]
      · by_cases h2 : c = ')'
        · by_cases h3 : 0 < d
          · simp [lex_string, lex_word_spec, word_action, h1, h2, h3, ih]
          · simp [lex_string, lex_word_spec, word_action, h1, h2, h3]
        · by_cases hw : is_whitespace c = true
          · by_cases hd : d = 0
            · simp [lex_string, lex_word_spec, word_action, h1, h2, hw, hd]
            · simp [lex_string, lex_word_spec, word_action, h1, h2, hw, hd, ih]
          · simp [lex_string, lex_word_spec, word_action, h1, h2, hw, ih]
  · decide

/-- C10: `lex` is total — it returns the success outcome carrying the token
    sequence of its scan for every input — and the declared failure outcome
    of its contract is never produced. -/
theorem claim_c10 : ∀ (input : List Char),
    lex input = Except.ok (lex_tokens input) ∧ (lex input).isOk = true := by
  intro input
  exact ⟨rfl, rfl⟩

theorem split_inclusive_eq_nil_iff (d : Char) : ∀ s : List Char,
    split_inclusive d s = [] ↔ s = [] := by
  intro s
  match s with
  | [] => simp [split_inclusive]
  | c :: rest =>
    simp only [split_inclusive]
    by_cases h : c = d
    · simp [h]
    · simp only [if_neg h]
      match split_inclusive d rest with
      | [] => simp
      | p :: ps => simp

theorem split_inclusive_ne_nil (d : Char) : ∀ (s : List Char) (p : List Char),
    p ∈ split_inclusive d s → p ≠ [] := by
  intro s
  induction s with
  | nil => intro p hp; simp [split_inclusive] at hp
  | cons c rest ih =>
    intro p hp
    simp only [split_inclusive] at hp
    by_cases h : c = d
    · rw [if_pos h] at hp
      rcases List.mem_cons.mp hp with h1 | h1
      · simp [h1]
      · exact ih p h1
    · rw [if_neg h] at hp
      rcases hs : split_inclusive d rest with _ | ⟨q, qs⟩
      · rw [hs] at hp
        simp at hp
        simp [hp]
      · rw [hs] at hp
        rcases List.mem_cons.mp hp with h1 | h1
        · simp [h1]
        · exact ih p (by rw [hs]; exact List.mem_cons_of_mem q h1)

theorem split_inclusive_flatten (d : Char) : ∀ s : List Char,
    (split_inclusive d s).flatten = s := by
  intro s
  induction s with
  | nil => rfl
  | cons c rest ih =>
    simp only [split_inclusive]
    by_cases h : c = d
    · simp [h, ih]
    · simp only [if_neg h]
      rcases hs : split_inclusive d rest with _ | ⟨q, qs⟩
      · have : rest = [] := (split_inclusive_eq_nil_iff d rest).mp hs
        simp [this]
      · rw [hs] at ih
        simp only [List.flatten_cons] at ih ⊢
        simp [← ih]

theorem split_inclusive_dropLast_getLast (d : Char) : ∀ (s : List Char) (p : List Char),
    p ∈ (split_inclusive d s).dropLast → p.getLast? = some d := by
  intro s
  induction s with
  | nil => intro p hp; simp [split_inclusive] at hp
  | cons c rest ih =>
    intro p hp
    simp only [split_inclusive] at hp
    by_cases h : c = d
    · rw [if_pos h] at hp
      rcases hs : split_inclusive d rest with _ | ⟨q, qs⟩
      · rw [hs] at hp; simp at hp
      · rw [hs] at hp
        rw [List.dropLast_cons₂] at hp
        rcases List.mem_cons.mp hp with h1 | h1
        · subst h1; simp [h]
        · exact ih p (by rw [hs]; exact h1)
    · rw [if_neg h] at hp
      rcases hs : split_inclusive d rest with _ | ⟨q, qs⟩
      · rw [hs] at hp; simp at hp
      · rw [hs] at hp
        rcases qs with _ | ⟨q2, qs'⟩
        · simp at hp
        · rw [List.dropLast_cons₂] at hp
          rcases List.mem_cons.mp hp with h1 | h1
          · subst h1
            have hq : q.getLast? = some d := by
              apply ih q
              rw [hs, List.dropLast_cons₂]
              exact List.mem_cons_self q _
            rcases q with _ | ⟨q0, qrest⟩
            · simp at hq
            · rw [List.getLast?_cons_cons]
              exact hq
          · apply ih p
            rw [hs, List.dropLast_cons₂]
            exact List.mem_cons_of_mem q h1

theorem split_inclusive_no_inner (d : Char) : ∀ (s : List Char) (p : List Char),
    p ∈ split_inclusive d s → ∀ x ∈ p.dropLast, x ≠ d := by
  intro s
  induction s with
  | nil => intro p hp; simp [split_inclusive] at hp
  | cons c rest ih =>
    intro p hp x hx
    simp only [split_inclusive] at hp
    by_cases h : c = d
    · rw [if_pos h] at hp
      rcases List.mem_cons.mp hp with h1 | h1
      · subst h1; simp at hx
      · exact ih p h1 x hx
    · rw [if_neg h] at hp
      rcases hs : split_inclusive d rest with _ | ⟨q, qs⟩
      · rw [hs] at hp
        simp at hp
        subst hp
        simp at hx
      · rw [hs] at hp
        rcases List.mem_cons.mp hp with h1 | h1
        · subst h1
          have hq : q ≠ [] := split_inclusive_ne_nil d rest q (by rw [hs]; exact List.mem_cons_self q _)
          rcases q with _ | ⟨q0, qrest⟩
          · exact absurd rfl hq
          · rw [List.dropLast_cons₂] at hx
            rcases List.mem_cons.mp hx with h2 | h2
            · subst h2; exact h
            · exact ih (q0 :: qrest) (by rw [hs]; exact List.mem_cons_self _ _) x h2
        · exact ih p (by rw [hs]; exact List.mem_cons_of_mem q h1) x hx

/-- C7: the full selector of a node is computed by splitting the raw
    selector inclusively on commas, prefixing every piece with the ancestor
    text and exactly one space, and joining with newlines; with an empty
    ancestor every line still begins with one leading space; the inclusive
    split is faithful (its pieces concatenate back to the selector), every
    piece but the last keeps its trailing comma, and commas occur only as
    such trailing characters. -/
theorem claim_c7 :
    (∀ parent sel : List Char, full_selector parent sel =
      List.intercalate ['\n'] ((split_inclusive ',' sel).map (fun s => parent ++ ' ' :: s))) ∧
    (∀ sel : List Char, full_selector [] sel =
      List.intercalate ['\n'] ((split_inclusive ',' sel).map (fun s => ' ' :: s))) ∧
    (∀ sel : List Char, (split_inclusive ',' sel).flatten = sel) ∧
    (∀ sel p : List Char, p ∈ (split_inclusive ',' sel).dropLast → p.getLast? = some ',') ∧
    (∀ sel p : List Char, p ∈ split_inclusive ',' sel → ∀ x ∈ p.dropLast, x ≠ ',') := by
  refine ⟨fun parent sel => rfl, fun sel => by simp [full_selector],
    split_inclusive_flatten ',', split_inclusive_dropLast_getLast ',',
    split_inclusive_no_inner ','⟩

/-- C7, witness at the selector `a:hover,p` with empty ancestor text. -/
theorem claim_c7_witness :
    full_selector [] ( "a:hover,p".toList ) =
      List.intercalate ['\n'] ((split_inclusive ',' ( "a:hover,p".toList )).map
        (fun s => ' ' :: s)) ∧
    ( "a:hover,".toList ).getLast? = some ',' ∧
    full_selector [] ( "a:hover,p".toList ) = ( " a:hover,\n p".toList ) :=
  ⟨claim_c7.2.1 ( "a:hover,p".toList ),
   claim_c7.2.2.2.1 ( "a:hover,p".toList ) ( "a:hover,".toList ) (by decide),
   by decide⟩

theorem intercalate_one (sep x : List Char) : List.intercalate sep [x] = x := by
  simp [List.intercalate, List.intersperse]

theorem intercalate_two (sep x y : List Char) (ys : List (List Char)) :
    List.intercalate sep (x :: y :: ys) = x ++ sep ++ List.intercalate sep (y :: ys) := by
  simp [List.intercalate, List.intersperse]

theorem to_stylesheet_list_eq : ∀ (cs : List SExpr) (sel sep : List Char),
    to_stylesheet_list cs sel sep = List.intercalate sep (cs.map (fun c => to_stylesheet c sel)) := by
  intro cs
  induction cs with
  | nil => intro sel sep; rfl
  | cons c cs ih =>
    intro sel sep
    match cs with
    | [] => simp [to_stylesheet_list, intercalate_one]
    | c2 :: cs' =>
      rw [List.map_cons, List.map_cons]
      rw [show to_stylesheet_list (c :: c2 :: cs') sel sep =
        to_stylesheet c sel ++ sep ++ to_stylesheet_list (c2 :: cs') sel sep from rfl]
      rw [ih sel sep, List.map_cons, intercalate_two]

/-- C4, amended: for a node with at least one rule, the rendered output is
    the CSS block (full selector line(s), a space and the opening brace,
    newline, rule lines joined by newlines, newline, closing brace, newline)
    followed by the children's rendered outputs joined with one newline
    between consecutive siblings — not by their plain concatenation: the
    source writes `children.join("\n")` in this branch. -/
theorem claim_c4 : ∀ (e : SExpr) (parent : List Char), e.rules.isEmpty = false →
    to_stylesheet e parent =
      css_block e parent ++
        List.intercalate ['\n']
          (e.children.map (fun c => to_stylesheet c (full_selector parent e.selector.text))) := by
  intro e parent h
  match e with
  | SExpr.mk sel rules children =>
    simp only [SExpr.rules] at h
    simp only [to_stylesheet, h, Bool.false_eq_true, if_false, css_block, SExpr.selector,
      SExpr.children, SExpr.rules, to_stylesheet_list_eq]
    simp

/-- C4, counterexample. For a node with one rule and two children the claim's
    output — block followed by the plain concatenation of the children's
    outputs — differs from the rendered output: the source inserts a newline
    between the two children (visible as the blank line in the actual
    output, whose text the second conjunct gives in full). -/
theorem claim_c4_counterexample :
    ((to_stylesheet (SExpr.mk ⟨ "body".toList ⟩ [⟨ "color".toList, [ "red".toList ]⟩]
        [SExpr.mk ⟨ "p".toList ⟩ [⟨ "color".toList, [ "blue".toList ]⟩] [],
         SExpr.mk ⟨ "a".toList ⟩ [⟨ "color".toList, [ "green".toList ]⟩] []]) []) ==
      (css_block (SExpr.mk ⟨ "body".toList ⟩ [⟨ "color".toList, [ "red".toList ]⟩]
        [SExpr.mk ⟨ "p".toList ⟩ [⟨ "color".toList, [ "blue".toList ]⟩] [],
         SExpr.mk ⟨ "a".toList ⟩ [⟨ "color".toList, [ "green".toList ]⟩] []]) [] ++
       to_stylesheet (SExpr.mk ⟨ "p".toList ⟩ [⟨ "color".toList, [ "blue".toList ]⟩] [])
         (full_selector [] ( "body".toList )) ++
       to_stylesheet (SExpr.mk ⟨ "a".toList ⟩ [⟨ "color".toList, [ "green".toList ]⟩] [])
         (full_selector [] ( "body".toList )))) = false ∧
    to_stylesheet (SExpr.mk ⟨ "body".toList ⟩ [⟨ "color".toList, [ "red".toList ]⟩]
        [SExpr.mk ⟨ "p".toList ⟩ [⟨ "color".toList, [ "blue".toList ]⟩] [],
         SExpr.mk ⟨ "a".toList ⟩ [⟨ "color".toList, [ "green".toList ]⟩] []]) [] =
      ( " body \x7b\n    color: red;\n\x7d\n body p \x7b\n    color: blue;\n\x7d\n\n body a \x7b\n    color: green;\n\x7d\n".toList ) := by
  exact ⟨by decide, by decide⟩

/-- C4, witness for the amended claim at the same two-child node. -/
theorem claim_c4_witness :
    to_stylesheet (SExpr.mk ⟨ "body".toList ⟩ [⟨ "color".toList, [ "red".toList ]⟩]
        [SExpr.mk ⟨ "p".toList ⟩ [⟨ "color".toList, [ "blue".toList ]⟩] [],
         SExpr.mk ⟨ "a".toList ⟩ [⟨ "color".toList, [ "green".toList ]⟩] []]) [] =
      css_block (SExpr.mk ⟨ "body".toList ⟩ [⟨ "color".toList, [ "red".toList ]⟩]
        [SExpr.mk ⟨ "p".toList ⟩ [⟨ "color".toList, [ "blue".toList ]⟩] [],
         SExpr.mk ⟨ "a".toList ⟩ [⟨ "color".toList, [ "green".toList ]⟩] []]) [] ++
      List.intercalate ['\n']
        [to_stylesheet (SExpr.mk ⟨ "p".toList ⟩ [⟨ "color".toList, [ "blue".toList ]⟩] [])
           (full_selector [] ( "body".toList )),
         to_stylesheet (SExpr.mk ⟨ "a".toList ⟩ [⟨ "color".toList, [ "green".toList ]⟩] [])
           (full_selector [] ( "body".toList ))] :=
  claim_c4 _ [] (by decide)

theorem take_words_le : ∀ (ts : List Token), (take_words ts).2.length ≤ ts.length := by
  intro ts
  induction ts with
  | nil => simp [take_words]
  | cons t rest ih =>
    match t with
    | Token.string s => simp only [take_words, List.length_cons]; omega
    | Token.lparen => simp only [take_words, List.length_cons]; omega
    | Token.rparen => simp only [take_words, List.length_cons]; omega

theorem parse_rule_le : ∀ (ts : List Token) (r : Rule) (rest' : List Token),
    parse_rule ts = some (r, rest') → rest'.length + 2 ≤ ts.length := by
  intro ts r rest' h
  match ts with
  | [] => simp [parse_rule] at h
  | [Token.string p] => simp [parse_rule] at h
  | Token.string p :: Token.string v :: rest =>
    simp only [parse_rule, Option.some.injEq, Prod.mk.injEq] at h
    rw [← h.2]
    simp
  | Token.string p :: Token.lparen :: rest =>
    simp only [parse_rule, Option.some.injEq, Prod.mk.injEq] at h
    rw [← h.2]
    have := take_words_le rest
    simp only [List.length_cons]
    omega
  | Token.string p :: Token.rparen :: rest => simp [parse_rule] at h
  | Token.lparen :: rest => simp [parse_rule] at h
  | Token.rparen :: rest => simp [parse_rule] at h

theorem parse_body_rest_le : ∀ (fuel : Nat) (ts : List Token) (rs : List Rule)
    (cs : List SExpr) (rest' : List Token), parse_body fuel ts = some (rs, cs, rest') →
    rest'.length ≤ ts.length := by
  intro fuel
  induction fuel with
  | zero => intro ts rs cs rest' h; simp [parse_body] at h
  | succ fuel ih =>
    intro ts rs cs rest' h
    match ts with
    | [] =>
      simp only [parse_body, Option.some.injEq, Prod.mk.injEq] at h
      rw [← h.2.2]
    | Token.string p :: rest =>
      simp only [parse_body] at h
      split at h
      · exact absurd h (by simp)
      · rename_i r rest1 hr
        split at h
        · exact absurd h (by simp)
        · rename_i rs2 cs2 rest2 hb
          simp only [Option.some.injEq, Prod.mk.injEq] at h
          have h1 := parse_rule_le _ _ _ hr
          have h2 := ih _ _ _ _ hb
          rw [← h.2.2]
          simp only [List.length_cons] at h1 ⊢
          omega
    | Token.lparen :: rest =>
      simp only [parse_body] at h
      split at h
      · rename_i s rest2
        split at h
        · exact absurd h (by simp)
        · rename_i rs1 cs1 rest3 hb1
          split at h
          · exact absurd h (by simp)
          · rename_i rs2 cs2 rest4 hb2
            simp only [Option.some.injEq, Prod.mk.injEq] at h
            have h1 := ih _ _ _ _ hb1
            have h2 := ih _ _ _ _ hb2
            rw [← h.2.2]
            simp only [List.length_cons]
            omega
      · exact absurd h (by simp)
    | Token.rparen :: rest =>
      simp only [parse_body, Option.some.injEq, Prod.mk.injEq] at h
      rw [← h.2.2]
      simp

theorem parse_body_fuel_eq : ∀ (f : Nat) (ts : List Token), ts.length < f →
    parse_body f ts = parse_body (ts.length + 1) ts := by
  intro f
  induction f using Nat.strong_induction_on with
  | _ f ihf =>
    intro ts hf
    match f, ts with
    | f + 1, [] => simp [parse_body]
    | f + 1, Token.string p :: rest =>
      simp only [parse_body, List.length_cons]
      rcases hr : parse_rule (Token.string p :: rest) with _ | ⟨r, rest1⟩
      · rfl
      · have hle := parse_rule_le _ _ _ hr
        simp only [List.length_cons] at hle hf
        have e1 : parse_body f rest1 = parse_body (rest1.length + 1) rest1 :=
          ihf f (by omega) rest1 (by omega)
        have e2 : parse_body (rest.length + 1) rest1 = parse_body (rest1.length + 1) rest1 :=
          ihf (rest.length + 1) (by omega) rest1 (by omega)
        dsimp only
        rw [e1, e2]
    | f + 1, Token.lparen :: rest =>
      simp only [parse_body, List.length_cons]
      match rest with
      | [] => rfl
      | Token.string s :: rest2 =>
        simp only [List.length_cons] at hf ⊢
        have e1 : parse_body f rest2 = parse_body (rest2.length + 1) rest2 :=
          ihf f (by omega) rest2 (by omega)
        have e2 : parse_body (rest2.length + 1 + 1) rest2 = parse_body (rest2.length + 1) rest2 :=
          ihf (rest2.length + 1 + 1) (by omega) rest2 (by omega)
        rw [e1, e2]
        rcases hb1 : parse_body (rest2.length + 1) rest2 with _ | ⟨rs1, cs1, rest3⟩
        · rfl
        · have hle3 : rest3.length ≤ rest2.length := parse_body_rest_le _ _ _ _ _ hb1
          have e3 : parse_body f rest3 = parse_body (rest3.length + 1) rest3 :=
            ihf f (by omega) rest3 (by omega)
          have e4 : parse_body (rest2.length + 1 + 1) rest3 = parse_body (rest3.length + 1) rest3 :=
            ihf (rest2.length + 1 + 1) (by omega) rest3 (by omega)
          dsimp only
          rw [e3, e4]
      | Token.lparen :: rest2 => rfl
      | Token.rparen :: rest2 => rfl
    | f + 1, Token.rparen :: rest => simp [parse_body]

theorem parse_loop_skip : ∀ (inner : List Token) (rest' seg : List Token) (depth : Nat)
    (acc : List SExpr), 1 ≤ depth → stays_pos depth inner = true →
    parse_loop (inner ++ rest') seg depth acc =
      parse_loop rest' (seg ++ inner) (end_depth depth inner) acc := by
  intro inner
  induction inner with
  | nil => intro rest' seg depth acc _ _; simp [end_depth]
  | cons t inner ih =>
    intro rest' seg depth acc hd hs
    match t with
    | Token.lparen =>
      simp only [stays_pos] at hs
      simp only [List.cons_append, parse_loop, end_depth, List.append_eq]
      rw [ih rest' (seg ++ [Token.lparen]) (depth + 1) acc (by omega) hs]
      simp
    | Token.rparen =>
      simp only [stays_pos, Bool.and_eq_true, decide_eq_true_eq] at hs
      simp only [List.cons_append, parse_loop, end_depth, List.append_eq]
      rw [if_neg (by omega : ¬ depth = 0), if_neg (by omega : ¬ depth = 1)]
      rw [ih rest' (seg ++ [Token.rparen]) (depth - 1) acc (by omega) hs.2]
      simp
    | Token.string w =>
      simp only [stays_pos, Bool.and_eq_true, decide_eq_true_eq] at hs
      simp only [List.cons_append, parse_loop, end_depth, List.append_eq]
      rw [if_neg (by omega : ¬ depth = 0)]
      rw [ih rest' (seg ++ [Token.string w]) depth acc (by omega) hs.2]
      simp

theorem parse_loop_acc : ∀ (ts : List Token) (seg : List Token) (depth : Nat)
    (acc : List SExpr), parse_loop ts seg depth acc =
      (parse_loop ts seg depth []).map (fun es => acc.reverse ++ es) := by
  intro ts
  induction ts with
  | nil => intro seg depth acc; simp [parse_loop]
  | cons t rest ih =>
    intro seg depth acc
    match t with
    | Token.lparen =>
      simp only [parse_loop]
      rw [ih _ _ acc]
    | Token.rparen =>
      by_cases h0 : depth = 0
      · simp [parse_loop, h0]
      · by_cases h1 : depth = 1
        · by_cases hseg : seg = []
          · simp [parse_loop, h0, h1, hseg]
          · simp only [parse_loop, if_neg h0, if_pos h1, if_neg hseg]
            rcases parse_s_expr seg.tail with _ | ⟨e, rest2⟩
            · exact ih _ _ acc
            · dsimp only
              rw [ih _ _ (e :: acc), ih _ _ [e]]
              rcases parse_loop rest [] 0 [] with _ | es
              · simp
              · simp
        · simp only [parse_loop, if_neg h0, if_neg h1]
          rw [ih _ _ acc]
    | Token.string w =>
      by_cases h0 : depth = 0
      · by_cases hseg : seg = []
        · simp [parse_loop, h0, hseg]
        · simp only [parse_loop, if_pos h0, if_neg hseg]
          rcases parse_s_expr seg.tail with _ | ⟨e, rest2⟩
          · exact ih _ _ acc
          · dsimp only
            rw [ih _ _ (e :: acc), ih _ _ [e]]
            rcases parse_loop rest [] 0 [] with _ | es
            · simp
            · simp
      · simp only [parse_loop, if_neg h0]
        rw [ih _ _ acc]

/-- C9: a top-level group (an `Open`, a run of tokens whose depth stays
    positive and returns exactly to zero at the matching `Close`, that
    `Close`) contributes its node when its recursive parse succeeds and is
    silently dropped when it fails, and in both cases the rest of the
    document is parsed exactly as it would be alone; and a malformed nested
    child (a `parse_s_expr` failure) makes the parse of the enclosing node
    fail as well, propagating the malformation only upward. -/
theorem claim_c9 :
    (∀ (inner rest : List Token), stays_pos 1 inner = true → end_depth 1 inner = 1 →
      parse (Token.lparen :: inner ++ Token.rparen :: rest) =
        (parse rest).map (fun es =>
          (match parse_s_expr inner with
           | some (e, _) => [e]
           | none => []) ++ es)) ∧
    (∀ (ts : List Token) (s : List Char), parse_s_expr ts = none →
      parse_s_expr (Token.string s :: Token.lparen :: ts) = none) := by
  constructor
  · intro inner rest hs hend
    show parse_loop (Token.lparen :: inner ++ Token.rparen :: rest) [] 0 [] = _
    rw [show parse_loop (Token.lparen :: inner ++ Token.rparen :: rest) [] 0 [] =
      parse_loop (inner ++ Token.rparen :: rest) [Token.lparen] 1 [] from rfl]
    rw [parse_loop_skip inner (Token.rparen :: rest) [Token.lparen] 1 [] (le_refl 1) hs, hend]
    have h1 : ¬ (1 : Nat) = 0 := by omega
    have h2 : (Token.lparen :: ([] ++ inner) : List Token) ≠ [] := by simp
    simp only [parse_loop, List.nil_append, List.cons_append, if_neg h1, if_pos rfl, if_neg h2,
      List.tail_cons]
    rcases hx : parse_s_expr inner with _ | ⟨e, r2⟩
    · simp [parse]
    · dsimp only
      rw [parse_loop_acc rest [] 0 [e]]
      rfl
  · intro ts s hps
    show (match parse_body ((Token.lparen :: ts).length + 1) (Token.lparen :: ts) with
      | none => none
      | some (rs, cs, rest') => some (SExpr.mk ⟨s⟩ rs cs, rest')) = none
    match ts, hps with
    | [], _ => rfl
    | Token.lparen :: rest2, _ => rfl
    | Token.rparen :: rest2, _ => rfl
    | Token.string s2 :: rest2, hps =>
      have hb : parse_body (rest2.length + 1) rest2 = none := by
        by_contra hne
        rcases hx : parse_body (rest2.length + 1) rest2 with _ | ⟨rs, cs, rest3⟩
        · exact hne hx
        · rw [show parse_s_expr (Token.string s2 :: rest2) =
            (match parse_body (rest2.length + 1) rest2 with
             | none => none
             | some (rs, cs, rest') => some (SExpr.mk ⟨s2⟩ rs cs, rest')) from rfl, hx] at hps
          simp at hps
      have hb2 : parse_body ((Token.string s2 :: rest2).length) rest2 = none := by
        rw [show (Token.string s2 :: rest2).length = rest2.length + 1 from rfl]
        exact hb
      simp only [List.length_cons, parse_body]
      have hb3 : parse_body (rest2.length + 1 + 1) rest2 = none := by
        rw [parse_body_fuel_eq (rest2.length + 1 + 1) rest2 (by omega)]
        exact hb
      rw [hb3]

/-- C9, witness at the one-word group `(a)` followed by nothing. -/
theorem claim_c9_witness :
    parse (Token.lparen :: [Token.string ( "a".toList )] ++ Token.rparen :: []) =
      (parse []).map (fun es =>
        (match parse_s_expr [Token.string ( "a".toList )] with
         | some (e, _) => [e]
         | none => []) ++ es) :=
  claim_c9.1 [Token.string ( "a".toList )] [] (by decide) (by decide)

example : parse (lex_tokens ( "(()) (body color red)".toList )) =
    some [SExpr.mk ⟨ "body".toList ⟩ [⟨ "color".toList, [ "red".toList ]⟩] []] := by decide

theorem SExpr.strong_ind (motive : SExpr → Prop)
    (h : ∀ (sel : Selector) (rules : List Rule) (children : List SExpr),
      (∀ c ∈ children, motive c) → motive (SExpr.mk sel rules children)) :
    ∀ e, motive e
  | SExpr.mk sel rules children =>
    h sel rules children (fun c hc =>
      have : sizeOf c < sizeOf (SExpr.mk sel rules children) := by
        have := List.sizeOf_lt_of_mem hc
        simp only [SExpr.mk.sizeOf_spec]
        omega
      SExpr.strong_ind motive h c)
termination_by e => sizeOf e

theorem count_char_append (ch : Char) (a b : List Char) :
    count_char ch (a ++ b) = count_char ch a + count_char ch b := by
  simp [count_char, List.count_append]

theorem count_char_intercalate (ch : Char) : ∀ (l : List (List Char)) (sep : List Char),
    count_char ch sep = 0 →
    count_char ch (List.intercalate sep l) = (l.map (count_char ch)).sum := by
  intro l
  induction l with
  | nil => intro sep hs; simp [count_char, List.intercalate]
  | cons x xs ih =>
    intro sep hs
    match xs with
    | [] => simp [intercalate_one]
    | y :: ys =>
      rw [intercalate_two, count_char_append, count_char_append, ih sep hs, hs]
      simp

theorem count_char_flatten (ch : Char) : ∀ (l : List (List Char)),
    count_char ch l.flatten = (l.map (count_char ch)).sum := by
  intro l
  induction l with
  | nil => simp [count_char]
  | cons x xs ih => simp [List.flatten_cons, count_char_append, ih]

theorem count_char_cons (ch c : Char) (s : List Char) :
    count_char ch (c :: s) = count_char ch s + (if c = ch then 1 else 0) := by
  by_cases h : c = ch
  · simp [count_char, List.count_cons, h]
  · simp [count_char, List.count_cons, h, Ne.symm h]

theorem count_char_full_selector (parent sel : List Char)
    (hp : count_char '\x7b' parent = 0) (hs : count_char '\x7b' sel = 0) :
    count_char '\x7b' (full_selector parent sel) = 0 := by
  have hpieces : ∀ p ∈ split_inclusive ',' sel, count_char '\x7b' p = 0 := by
    intro p hp2
    have h1 : ((split_inclusive ',' sel).map (count_char '\x7b')).sum = 0 := by
      rw [← count_char_flatten, split_inclusive_flatten]
      exact hs
    exact List.sum_eq_zero_iff.mp h1 _ (List.mem_map_of_mem _ hp2)
  rw [full_selector, count_char_intercalate _ _ _ (by decide)]
  apply List.sum_eq_zero
  intro x hx
  simp only [List.mem_map] at hx
  obtain ⟨q, hq, rfl⟩ := hx
  obtain ⟨a, ha, rfl⟩ := hq
  rw [count_char_append, count_char_cons, hp, hpieces a ha]
  simp

theorem count_char_rule_line (r : Rule) (hp : count_char '\x7b' r.property = 0)
    (hv : ∀ v ∈ r.value, count_char '\x7b' v = 0) :
    count_char '\x7b' (rule_line r) = 0 := by
  rw [rule_line]
  simp only [count_char_append, count_char_cons]
  rw [count_char_intercalate _ _ _ (by decide), hp]
  rw [List.sum_eq_zero (by
    intro x hx
    simp only [List.mem_map] at hx
    obtain ⟨v, hvm, rfl⟩ := hx
    exact hv v hvm)]
  simp [count_char]

theorem count_to_stylesheet_list_aux : ∀ (cs : List SExpr) (par2 sep : List Char),
    (∀ c ∈ cs, ∀ parent : List Char, clean_tree c = true → count_char '\x7b' parent = 0 →
      count_char '\x7b' (to_stylesheet c parent) = rule_nodes c) →
    clean_tree_list cs = true → count_char '\x7b' par2 = 0 → count_char '\x7b' sep = 0 →
    count_char '\x7b' (to_stylesheet_list cs par2 sep) = rule_nodes_list cs := by
  intro cs
  induction cs with
  | nil => intro par2 sep _ _ _ _; simp [to_stylesheet_list, rule_nodes_list, count_char]
  | cons c cs ih =>
    intro par2 sep hpt hclean hpar hsep
    simp only [clean_tree_list, Bool.and_eq_true] at hclean
    have hc := hpt c (List.mem_cons_self c cs) par2 hclean.1 hpar
    match cs with
    | [] =>
      simp only [to_stylesheet_list, rule_nodes_list]
      rw [hc]
      simp
    | c2 :: cs' =>
      simp only [to_stylesheet_list, rule_nodes_list]
      rw [count_char_append, count_char_append, hc, hsep,
        ih par2 sep (fun x hx => hpt x (List.mem_cons_of_mem c hx)) hclean.2 hpar hsep]
      simp only [rule_nodes_list]
      omega

theorem count_to_stylesheet : ∀ (e : SExpr) (parent : List Char), clean_tree e = true →
    count_char '\x7b' parent = 0 → count_char '\x7b' (to_stylesheet e parent) = rule_nodes e := by
  intro e
  induction e using SExpr.strong_ind with
  | h sel rules children ih =>
    intro parent hclean hparent
    simp only [clean_tree, Bool.and_eq_true, decide_eq_true_eq] at hclean
    obtain ⟨⟨hsel, hrules⟩, hkids⟩ := hclean
    have hfs : count_char '\x7b' (full_selector parent sel.text) = 0 :=
      count_char_full_selector _ _ hparent hsel
    have hpt : ∀ c ∈ children, ∀ parent2 : List Char, clean_tree c = true →
        count_char '\x7b' parent2 = 0 →
        count_char '\x7b' (to_stylesheet c parent2) = rule_nodes c :=
      fun c hc => ih c hc
    by_cases hempty : rules.isEmpty
    · simp only [to_stylesheet, hempty, if_true, rule_nodes]
      rw [count_to_stylesheet_list_aux children _ _ hpt hkids hfs (by decide)]
      simp [hempty]
    · simp only [to_stylesheet, hempty, if_false, Bool.false_eq_true]
      simp only [count_char_append, count_char_cons]
      rw [count_char_intercalate _ _ _ (by decide)]
      rw [List.sum_eq_zero (by
        intro x hx
        simp only [List.map_map, List.mem_map, Function.comp_apply] at hx
        obtain ⟨r, hrm, rfl⟩ := hx
        simp only [List.all_eq_true, Bool.and_eq_true, decide_eq_true_eq] at hrules
        obtain ⟨hrp, hrv⟩ := hrules r hrm
        exact count_char_rule_line r hrp (by
          intro v hvm
          have := hrv
          simp only [List.all_eq_true, decide_eq_true_eq] at this
          exact this v hvm))]
      rw [count_to_stylesheet_list_aux children _ _ hpt hkids hfs (by decide)]
      rw [hfs]
      simp only [rule_nodes, hempty, if_false, Bool.false_eq_true]
      simp

/-- C5: for every input whose tokens parse (one or more balanced top-level
    groups) and whose parsed trees contain no brace character in any word,
    the rendered output contains exactly one CSS block — counted by its
    opening brace — per parsed node, at every depth, that has at least one
    rule; and a node with zero rules contributes nothing of its own: its
    output is exactly the children's output joined by the empty string, with
    its computed full selector still passed to the children as the ancestor
    text. -/
theorem claim_c5 :
    (∀ (input : List Char) (es : List SExpr), parse (lex_tokens input) = some es →
      clean_tree_list es = true →
      ∃ out, string_to_stylesheet input = some out ∧
        count_char '\x7b' out = rule_nodes_list es) ∧
    (∀ (e : SExpr) (parent : List Char), e.rules.isEmpty = true →
      to_stylesheet e parent =
        to_stylesheet_list e.children (full_selector parent e.selector.text) []) := by
  constructor
  · intro input es hparse hclean
    refine ⟨List.intercalate [] (es.map (fun e => to_stylesheet e [])), ?_, ?_⟩
    · simp [string_to_stylesheet, lex, hparse]
    · rw [← to_stylesheet_list_eq]
      exact count_to_stylesheet_list_aux es [] []
        (fun c _ => count_to_stylesheet c) hclean rfl rfl
  · intro e parent h
    match e with
    | SExpr.mk sel rules children =>
      simp only [SExpr.rules] at h
      simp only [to_stylesheet, h, if_true, SExpr.children, SExpr.selector]

/-- C5, witness at the spec's own example `(ul (li text-decoration none))`:
    one block for two nodes, since `ul` carries no rule. -/
theorem claim_c5_witness :
    ∃ out, string_to_stylesheet ( "(ul (li text-decoration none))".toList ) = some out ∧
      count_char '\x7b' out = rule_nodes_list
        [SExpr.mk ⟨ "ul".toList ⟩ []
          [SExpr.mk ⟨ "li".toList ⟩ [⟨ "text-decoration".toList, [ "none".toList ]⟩] []]] :=
  claim_c5.1 _ _ (by decide) (by decide)

theorem scan_all_append : ∀ (xs ys : List Char) (d : Nat),
    scan_all d (xs ++ ys) = (scan_all d xs).bind (fun d' => scan_all d' ys) := by
  intro xs
  induction xs with
  | nil => intro ys d; simp [scan_all]
  | cons c rest ih =>
    intro ys d
    by_cases h1 : c = '('
    · simp [scan_all, h1, ih]
    · by_cases h2 : c = ')'
      · by_cases h3 : 0 < d
        · simp [scan_all, h1, h2, h3, ih]
        · simp [scan_all, h1, h2, h3]
      · by_cases h4 : is_whitespace c = true ∧ d = 0
        · simp [scan_all, h1, h2, h4]
        · simp [scan_all, h1, h2, h4, ih]

theorem lex_string_of_scan : ∀ (w : List Char) (d d' : Nat) (rest : List Char),
    scan_all d w = some d' →
    (match rest with
     | [] => True
     | c :: _ => d' = 0 ∧ (c = ')' ∨ is_whitespace c = true)) →
    lex_string d (w ++ rest) = (w, rest) := by
  intro w
  induction w with
  | nil =>
    intro d d' rest hscan hbrk
    simp only [scan_all, Option.some.injEq] at hscan
    subst hscan
    match rest with
    | [] => rfl
    | c :: rest2 =>
      obtain ⟨hd, hc⟩ := hbrk
      subst hd
      rcases hc with hc | hc
      · simp [lex_string, hc]
      · have h1 : ¬ c = '(' := by rintro rfl; simp [is_whitespace] at hc
        have h2 : ¬ c = ')' := by rintro rfl; simp [is_whitespace] at hc
        simp [lex_string, h1, h2, hc]
  | cons a w' ih =>
    intro d d' rest hscan hbrk
    by_cases h1 : a = '('
    · simp only [scan_all, h1, if_pos rfl] at hscan
      simp only [List.cons_append, List.append_eq, lex_string, if_pos h1]
      rw [ih (d + 1) d' rest (by simpa using hscan) hbrk]
    · by_cases h2 : a = ')'
      · by_cases h3 : 0 < d
        · simp only [scan_all, h1, h2, if_neg h1, if_pos rfl, if_pos h3] at hscan
          simp only [List.cons_append, List.append_eq, lex_string, if_neg h1, if_pos h2,
            if_pos h3]
          rw [ih (d - 1) d' rest hscan hbrk]
        · simp [scan_all, h1, h2, h3] at hscan
      · by_cases h4 : is_whitespace a = true ∧ d = 0
        · simp [scan_all, h1, h2, h4] at hscan
        · simp only [scan_all, if_neg h1, if_neg h2, if_neg h4] at hscan
          simp only [List.cons_append, List.append_eq, lex_string, if_neg h1, if_neg h2,
            if_neg h4]
          rw [ih d d' rest hscan hbrk]

theorem good_lex_loop : ∀ (l : List Char) (st : Option (List Char × Nat)),
    state_ok st → GoodToks (lex_loop st l) := by
  intro l
  induction l with
  | nil =>
    intro st hst
    match st with
    | none => exact GoodToks.nil
    | some (acc, d) =>
      obtain ⟨c, w, hrev, hhead, hscan⟩ := hst
      simp only [lex_loop, hrev]
      exact GoodToks.word_last hhead hscan
  | cons ch rest ih =>
    intro st hst
    match st with
    | none =>
      by_cases h1 : ch = '('
      · simp only [lex_loop, if_pos h1]
        exact GoodToks.lparen (ih none trivial)
      · by_cases h2 : ch = ')'
        · simp only [lex_loop, if_neg h1, if_pos h2]
          exact GoodToks.rparen (ih none trivial)
        · by_cases hw : is_whitespace ch = true
          · simp only [lex_loop, if_neg h1, if_neg h2, if_pos hw]
            exact ih none trivial
          · simp only [lex_loop, if_neg h1, if_neg h2, if_neg hw]
            apply ih
            refine ⟨ch, [], by simp, by simp [word_head_ok, h1, h2, hw], ?_⟩
            simp [scan_all, h1, h2, hw]
    | some (acc, d) =>
      obtain ⟨c, w, hrev, hhead, hscan⟩ := hst
      by_cases h1 : ch = '('
      · simp only [lex_loop, if_pos h1]
        apply ih
        refine ⟨c, w ++ [ch], by simp [hrev], hhead, ?_⟩
        rw [show c :: (w ++ [ch]) = (c :: w) ++ [ch] from rfl, scan_all_append, hscan]
        simp [scan_all, h1]
      · by_cases h2 : ch = ')'
        · by_cases h3 : 0 < d
          · simp only [lex_loop, if_neg h1, if_pos h2, if_pos h3]
            apply ih
            refine ⟨c, w ++ [ch], by simp [hrev], hhead, ?_⟩
            rw [show c :: (w ++ [ch]) = (c :: w) ++ [ch] from rfl, scan_all_append, hscan]
            simp [scan_all, h1, h2, h3]
          · have hd : d = 0 := by omega
            subst hd
            simp only [lex_loop, if_neg h1, if_pos h2, if_neg h3, hrev]
            exact GoodToks.word hhead hscan (GoodToks.rparen (ih none trivial))
        · by_cases h4 : is_whitespace ch = true ∧ d = 0
          · obtain ⟨hw, hd⟩ := h4
            subst hd
            simp only [lex_loop, if_neg h1, if_neg h2, hrev]
            rw [if_pos (by simp [hw])]
            exact GoodToks.word hhead hscan (ih none trivial)
          · simp only [lex_loop, if_neg h1, if_neg h2, if_neg h4]
            apply ih
            refine ⟨c, w ++ [ch], by simp [hrev], hhead, ?_⟩
            rw [show c :: (w ++ [ch]) = (c :: w) ++ [ch] from rfl, scan_all_append, hscan]
            simp only [Option.some_bind]
            simp only [scan_all, if_neg h1, if_neg h2]
            rw [if_neg (by
              intro hx
              exact h4 ⟨hx.1, hx.2⟩)]

theorem good_lex : ∀ (input : List Char), GoodToks (lex_tokens input) := by
  intro input
  exact good_lex_loop input none trivial

theorem serialize_cons : ∀ (t : Token) (ts : List Token),
    serialize (t :: ts) = show_token t ++
      (match t, ts with
       | Token.string _, Token.string _ :: _ => [' ']
       | Token.string _, Token.lparen :: _ => [' ']
       | _, _ => []) ++ serialize ts := by
  intro t ts
  match t, ts with
  | t, [] => simp [serialize]
  | Token.string s, Token.string s2 :: ts2 => rfl
  | Token.string s, Token.lparen :: ts2 => rfl
  | Token.string s, Token.rparen :: ts2 => rfl
  | Token.lparen, t2 :: ts2 => match t2 with
    | Token.string _ => rfl
    | Token.lparen => rfl
    | Token.rparen => rfl
  | Token.rparen, t2 :: ts2 => match t2 with
    | Token.string _ => rfl
    | Token.lparen => rfl
    | Token.rparen => rfl

theorem word_head_ok_elim {c : Char} (h : word_head_ok c = true) :
    ¬ c = '(' ∧ ¬ c = ')' ∧ ¬ is_whitespace c = true := by
  simp only [word_head_ok, Bool.not_eq_eq_eq_not, Bool.not_true, Bool.or_eq_false_iff,
    decide_eq_false_iff_not] at h
  exact ⟨h.1.1, h.1.2, by simp [h.2]⟩

theorem serialize_lex : ∀ (ts : List Token), GoodToks ts →
    lex_tokens (serialize ts) = ts := by
  intro ts hg
  induction hg with
  | nil => rfl
  | lparen hts ih =>
    rename_i ts2
    rw [serialize_cons]
    simp only [show_token]
    rw [show ('(' :: []) ++ (match Token.lparen, ts2 with
       | Token.string _, Token.string _ :: _ => [' ']
       | Token.string _, Token.lparen :: _ => [' ']
       | _, _ => ([] : List Char)) ++ serialize ts2 = '(' :: serialize ts2 by
      match ts2 with
      | [] => rfl
      | Token.string _ :: _ => rfl
      | Token.lparen :: _ => rfl
      | Token.rparen :: _ => rfl]
    rw [lex_tokens_lparen, ih]
  | rparen hts ih =>
    rename_i ts2
    rw [serialize_cons]
    simp only [show_token]
    rw [show (')' :: []) ++ (match Token.rparen, ts2 with
       | Token.string _, Token.string _ :: _ => [' ']
       | Token.string _, Token.lparen :: _ => [' ']
       | _, _ => ([] : List Char)) ++ serialize ts2 = ')' :: serialize ts2 by
      match ts2 with
      | [] => rfl
      | Token.string _ :: _ => rfl
      | Token.lparen :: _ => rfl
      | Token.rparen :: _ => rfl]
    rw [lex_tokens_rparen, ih]
  | word hhead hscan hts ih =>
    rename_i c w ts2
    obtain ⟨h1, h2, h3⟩ := word_head_ok_elim hhead
    rw [serialize_cons]
    simp only [show_token]
    match ts2 with
    | [] =>
      simp only [serialize, List.append_nil]
      rw [lex_tokens_word w h1 h2 h3]
      rw [show (lex_string 0 (c :: w)) = lex_string 0 ((c :: w) ++ []) by rw [List.append_nil]]
      rw [lex_string_of_scan (c :: w) 0 0 [] hscan trivial]
      rfl
    | Token.string s2 :: ts3 =>
      rw [show ((c :: w) ++ [' '] ++ serialize (Token.string s2 :: ts3) : List Char) =
        c :: (w ++ (' ' :: serialize (Token.string s2 :: ts3))) by simp]
      rw [lex_tokens_word _ h1 h2 h3]
      rw [show (c :: (w ++ (' ' :: serialize (Token.string s2 :: ts3))) : List Char) =
        (c :: w) ++ (' ' :: serialize (Token.string s2 :: ts3)) from rfl]
      rw [lex_string_of_scan (c :: w) 0 0 _ hscan (by exact ⟨rfl, Or.inr (by decide)⟩)]
      rw [lex_tokens_ws _ (by decide), ih]
    | Token.lparen :: ts3 =>
      rw [show ((c :: w) ++ [' '] ++ serialize (Token.lparen :: ts3) : List Char) =
        c :: (w ++ (' ' :: serialize (Token.lparen :: ts3))) by simp]
      rw [lex_tokens_word _ h1 h2 h3]
      rw [show (c :: (w ++ (' ' :: serialize (Token.lparen :: ts3))) : List Char) =
        (c :: w) ++ (' ' :: serialize (Token.lparen :: ts3)) from rfl]
      rw [lex_string_of_scan (c :: w) 0 0 _ hscan (by exact ⟨rfl, Or.inr (by decide)⟩)]
      rw [lex_tokens_ws _ (by decide), ih]
    | Token.rparen :: ts3 =>
      have hser : serialize (Token.rparen :: ts3) = ')' :: serialize ts3 := by
        rw [serialize_cons]
        simp only [show_token]
        match ts3 with
        | [] => rfl
        | Token.string _ :: _ => rfl
        | Token.lparen :: _ => rfl
        | Token.rparen :: _ => rfl
      rw [show ((c :: w) ++ [] ++ serialize (Token.rparen :: ts3) : List Char) =
        c :: (w ++ serialize (Token.rparen :: ts3)) by simp]
      rw [lex_tokens_word _ h1 h2 h3]
      rw [show (c :: (w ++ serialize (Token.rparen :: ts3)) : List Char) =
        (c :: w) ++ serialize (Token.rparen :: ts3) from rfl]
      rw [hser]
      rw [lex_string_of_scan (c :: w) 0 0 _ hscan (by exact ⟨rfl, Or.inl rfl⟩)]
      dsimp only
      rw [← hser, ih]
  | word_last hhead hscan =>
    rename_i c w d
    obtain ⟨h1, h2, h3⟩ := word_head_ok_elim hhead
    simp only [serialize, show_token]
    rw [lex_tokens_word w h1 h2 h3]
    rw [show (lex_string 0 (c :: w)) = lex_string 0 ((c :: w) ++ []) by rw [List.append_nil]]
    rw [lex_string_of_scan (c :: w) 0 d [] hscan trivial]
    rfl

/-- C8, counterexample. Re-serializing the tokens of `(body margin (0))` as
    the claim describes — word texts joined with single spaces, parentheses
    written adjacently — produces `(body margin(0))`, and re-lexing that text
    absorbs the `Open` into the preceding word, giving a different token
    sequence: the round trip fails whenever a `Word` is followed by an
    `Open`. -/
theorem claim_c8_counterexample :
    serialize_spec (lex_tokens ( "(body margin (0))".toList )) =
      ( "(body margin(0))".toList ) ∧
    lex_tokens (serialize_spec (lex_tokens ( "(body margin (0))".toList ))) =
      [Token.lparen, Token.string ( "body".toList ), Token.string ( "margin(0)".toList ),
       Token.rparen] ∧
    (lex_tokens (serialize_spec (lex_tokens ( "(body margin (0))".toList ))) ==
      lex_tokens ( "(body margin (0))".toList )) = false := by
  exact ⟨by decide, by decide, by decide⟩

/-- C8, amended: the round trip holds for the re-serialization that writes a
    single space after a `Word` also when an `Open` follows (and keeps all
    other adjacencies as the claim describes): for every input string,
    re-serializing the lexed tokens and lexing the result gives exactly the
    same token sequence, even though the re-serialized text need not be
    byte-identical to the original input. -/
theorem claim_c8 : ∀ (input : List Char),
    lex_tokens (serialize (lex_tokens input)) = lex_tokens input :=
  fun input => serialize_lex _ (good_lex input)

example : lex_tokens ( "(body background-color var(--text-color, red)def)".toList ) =
    [Token.lparen, Token.string ( "body".toList ), Token.string ( "background-color".toList ),
     Token.string ( "var(--text-color, red)def".toList ), Token.rparen] := by decide

example : parse (lex_tokens ( "(body background-color white (p color blue) color red)".toList )) =
    some [SExpr.mk ⟨ "body".toList ⟩
      [⟨ "background-color".toList, [ "white".toList ]⟩, ⟨ "color".toList, [ "red".toList ]⟩]
      [SExpr.mk ⟨ "p".toList ⟩ [⟨ "color".toList, [ "blue".toList ]⟩] []]] := by decide
